import Mathlib

/-!
Verification development for the ogg-opus crate (RFC7845 framing layer).

The Rust sources `src/common.rs`, `src/encode.rs` and `src/decode.rs` are
shallowly embedded below.  Machine integers are modelled as `ℕ` with an
explicit `% 2^w` wherever the source arithmetic can wrap (u16/u32/u64
multiplication); the opus codec primitive and the ogg container primitive
are external collaborators and appear only through their interface:
frames handed to the encoder are recorded by their interleaved sample
count, packets handed back by the container reader carry the decoded
per-channel sample count, the decoded interleaved samples, the
last-in-stream flag and the granule position.

The `as f32` / f32-division / `floor` computation of the number of whole
20 ms frames in `encode` is modelled exactly (round to nearest, ties to
even, 24-bit significand) by `f32round` below.
-/

namespace OggOpus

/-! ## common.rs -/

def OGG_OPUS_SPS : ℕ := 48000

def MAX_NUM_CHANNELS : ℕ := 2

/-- "OpusHead" as bytes. -/
def OPUS_MAGIC_HEADER : List ℕ := [79, 112, 117, 115, 72, 101, 97, 100]

def MAX_FRAME_SAMPLES : ℕ := 5760

def MAX_FRAME_SIZE : ℕ := MAX_FRAME_SAMPLES * MAX_NUM_CHANNELS

def FRAME_TIME_MS : ℕ := 20

def MAX_PACKET : ℕ := 4000

def MIN_FRAME_MICROS : ℕ := 25

/-- `calc_sr`: `((val as u32 * dest_sr) / org_sr) as u16`.  The `u32`
multiplication wraps at `2^32`, the final cast truncates to `2^16`. -/
def calc_sr (val org_sr dest_sr : ℕ) : ℕ :=
  val * dest_sr % 2 ^ 32 / org_sr % 2 ^ 16

/-- `calc_sr_u64`: `(val * dest_sr as u64) / (org_sr as u64)`; the `u64`
multiplication wraps at `2^64`. -/
def calc_sr_u64 (val org_sr dest_sr : ℕ) : ℕ :=
  val * dest_sr % 2 ^ 64 / org_sr

inductive SampleRate
  | hz8000
  | hz12000
  | hz16000
  | hz24000
  | hz48000
deriving DecidableEq

/-- `s_ps_to_audiopus`: the supported-rate enumeration. -/
def s_ps_to_audiopus (s_ps : ℕ) : Option SampleRate :=
  match s_ps with
  | 8000 => some .hz8000
  | 12000 => some .hz12000
  | 16000 => some .hz16000
  | 24000 => some .hz24000
  | 48000 => some .hz48000
  | _ => none

/-! ## The error taxonomy

Modelled from the spec: the crate's `Error` enum lives in `lib.rs`, which is
not among the provided sources; §7 of the spec gives the taxonomy
MalformedAudio / InvalidSampleRate / CodecFailure / IOFailure, and says loop
reader failures are surfaced in the I/O class. -/

inductive Error
  | MalformedAudio
  | InvalidSampleRate
  | CodecFailure
  | IOFailure
deriving DecidableEq

/-! ## The f32 frame-count computation in encode.rs

`let max = (tot_samples as f32 / frame_size as f32).floor() as usize;`

`as f32` on an integer and f32 division both round to nearest, ties to
even.  A finite nonnegative f32 value is `m * 2^(e-23)` with `m < 2^24`;
rounding a positive rational to f32 rounds its significand scaled into
`[2^23, 2^24)` to the nearest integer (ties to even).  `floor` of a
nonnegative f32 followed by `as usize` is `Int.floor` followed by `toNat`.
-/

/-- Round a rational to the nearest integer, ties to even. -/
def rnte (q : ℚ) : ℤ :=
  if Int.fract q < 1 / 2 then ⌊q⌋
  else if Int.fract q = 1 / 2 then (if ⌊q⌋ % 2 = 0 then ⌊q⌋ else ⌊q⌋ + 1)
  else ⌊q⌋ + 1

/-- The f32 (binary32) value nearest to a nonnegative rational: the
significand, scaled by the power of two that puts it in `[2^23, 2^24)`,
is rounded to the nearest integer with ties to even.  Faithful on the
normal finite range, which covers every value these models produce. -/
def f32round (q : ℚ) : ℚ :=
  if q ≤ 0 then 0
  else (rnte (q * 2 ^ (23 - Int.log 2 q)) : ℚ) * 2 ^ (Int.log 2 q - 23)

/-- `n as f32`. -/
def f32ofNat (n : ℕ) : ℚ := f32round n

/-- f32 division: IEEE-754 division is the correctly rounded exact quotient. -/
def f32div (x y : ℚ) : ℚ := f32round (x / y)

/-- `(tot_samples as f32 / frame_size as f32).floor() as usize`. -/
def maxF32 (tot_samples frame_size : ℕ) : ℕ :=
  (⌊f32div (f32ofNat tot_samples) (f32ofNat frame_size)⌋).toNat

/-! ## encode.rs -/

/-- `to_samples::<S_PS>(ms)`. -/
def to_samples (s_ps ms : ℕ) : ℕ := s_ps * ms / 1000

/-- `calc_fr_size(us, channels, sps)`: `((sps * us) * channels) / (1000 * 10)`. -/
def calc_fr_size (us channels sps : ℕ) : ℕ := sps * us * channels / (1000 * 10)

inductive Channels
  | mono
  | stereo
deriving DecidableEq

/-- `opus_channels(val)`: 1 and 0 are mono, anything else stereo. -/
def opus_channels (val : ℕ) : Channels :=
  if val = 1 ∨ val = 0 then .mono else .stereo

/-- `calc_biggest_spills`: first element of the reversed list that is `≤ val`. -/
def calc_biggest_spills (val : ℕ) (possibles : List ℕ) : Option ℕ :=
  possibles.reverse.find? fun c => decide (c ≤ val)

/-- `is_end_of_stream(pos, max)`: `EndStream` iff `pos == max`, modelled as the
end-of-stream flag of the written packet. -/
def is_end_of_stream (pos max : ℕ) : Bool := pos == max

/-- `granule::<S_PS>(val)`. -/
def granule (s_ps val : ℕ) : ℕ := calc_sr_u64 val s_ps OGG_OPUS_SPS

/-- `MAX_25_SIZE`: maximum size of a 2.5 ms frame. -/
def MAX_25_SIZE : ℕ := calc_fr_size MIN_FRAME_MICROS MAX_NUM_CHANNELS OGG_OPUS_SPS

/-- The four tail frame sizes `[2.5ms, 5ms, 10ms, 20ms]` in interleaved samples. -/
def frameSizes (s_ps channels : ℕ) : List ℕ :=
  [calc_fr_size MIN_FRAME_MICROS channels s_ps,
   calc_fr_size 50 channels s_ps,
   calc_fr_size 100 channels s_ps,
   calc_fr_size 200 channels s_ps]

/-- One audio packet written by the encoder: the interleaved sample count of
the frame handed to the opus primitive, the end-of-stream flag, and the
granule position. -/
structure EncPkt where
  flen : ℕ
  eos : Bool
  gran : ℕ
deriving DecidableEq

/-- The 19-byte "OpusHead" identification header built in `encode`:
magic, version 1, channel count byte, little-endian pre-skip, little-endian
sample rate, zero output gain, zero channel-mapping family. -/
def opusHead (s_ps channels skip_48 : ℕ) : List ℕ :=
  [79, 112, 117, 115, 72, 101, 97, 100,
   1, channels,
   skip_48 % 256, skip_48 / 256 % 256,
   s_ps % 256, s_ps / 256 % 256, s_ps / 65536 % 256, s_ps / 16777216 % 256,
   0, 0,
   0]

/-- Vendor string bytes; the real one is "ogg-opus <version>" where the
version suffix is a build-time constant absent from the sources.  Only its
role in the comment header's layout matters to any claim. -/
def vendorBytes : List ℕ := [111, 103, 103, 45, 111, 112, 117, 115]

/-- The "OpusTags" comment header built in `encode`: magic, little-endian
vendor length, vendor bytes, zero user comments. -/
def opusTagsBytes : List ℕ :=
  [79, 112, 117, 115, 84, 97, 103, 115] ++
    [vendorBytes.length % 256, 0, 0, 0] ++ vendorBytes ++ [0, 0, 0, 0]

/-- The `while last_sample < tot_samples` tail loop of `encode`.  `fuel`
bounds the iteration count (the loop has no intrinsic bound when a frame
size of 0 is picked, which happens for channel count 0); `none` models
divergence or a panicking slice access.  In the fallback arm the source
copies `audio[last_audio_s..]` into `in_buffer[rem_skip..rem_samples]` with
`in_buffer` of length `MAX_25_SIZE`; the guard mirrors the index bounds of
that copy. -/
def encTail (s_ps channels skip L tot : ℕ) : ℕ → ℕ → Option (List EncPkt)
  | 0, _ => none
  | fuel + 1, last_sample =>
    if last_sample < tot then
      match calc_biggest_spills (tot - last_sample) (frameSizes s_ps channels) with
      | some frame_size =>
        match encTail s_ps channels skip L tot fuel (last_sample + frame_size) with
        | some rest =>
          some (⟨frame_size,
                 is_end_of_stream (last_sample + frame_size) tot,
                 granule s_ps ((last_sample + frame_size) / channels)⟩ :: rest)
        | none => none
      | none =>
        if skip - min last_sample skip ≤ tot - last_sample ∧
            tot - last_sample ≤ MAX_25_SIZE then
          some [⟨calc_fr_size MIN_FRAME_MICROS channels s_ps,
                 true,
                 granule s_ps ((skip + L) / channels)⟩]
        else none
    else some []

/-- The `for counter in 0..max` main loop of `encode`: `max` frames of
`frame_size` interleaved samples; packet `counter` is flagged end-of-stream
iff `(counter+1)*frame_size == tot_samples` and carries granule
`granule(skip + (counter+1)*frame_samples)`. -/
def encMain (s_ps channels skip tot maxN : ℕ) : List EncPkt :=
  (List.range maxN).map fun counter =>
    ⟨to_samples s_ps FRAME_TIME_MS * channels,
     is_end_of_stream ((counter + 1) * (to_samples s_ps FRAME_TIME_MS * channels)) tot,
     granule s_ps (skip + (counter + 1) * to_samples s_ps FRAME_TIME_MS)⟩

/-- `encode::<S_PS, NUM_CHANNELS>` for an input of `L` interleaved samples,
with the opus primitive's reported lookahead `skip`.  Returns the
identification header and the audio packets (the comment header is the
constant `opusTagsBytes`); `none` models a panic (a main-loop slice access
past the input, equivalently a violation of
`assert!(last_sample <= audio.len() + skip_us)`) or divergence of the tail
loop.  Rate validation failure is also collapsed into `none`; no claim
distinguishes it.  The source's locals are inlined:
`tot_samples = L + skip`, `frame_samples = to_samples s_ps FRAME_TIME_MS`,
`frame_size = frame_samples * channels`, `max = maxF32 tot_samples
frame_size`, `skip_48 = calc_sr skip s_ps OGG_OPUS_SPS`; the guard
`max * frame_size ≤ tot_samples` is exactly the in-bounds condition of the
main loop's slice accesses and of the source's assert. -/
def encodeModel (s_ps channels skip L : ℕ) : Option (List ℕ × List EncPkt) :=
  if (s_ps_to_audiopus s_ps).isNone then none
  else if maxF32 (L + skip) (to_samples s_ps FRAME_TIME_MS * channels) *
      (to_samples s_ps FRAME_TIME_MS * channels) ≤ L + skip then
    match encTail s_ps channels skip L (L + skip) (L + skip + 1)
        (maxF32 (L + skip) (to_samples s_ps FRAME_TIME_MS * channels) *
          (to_samples s_ps FRAME_TIME_MS * channels)) with
    | some tail =>
      some (opusHead s_ps channels (calc_sr skip s_ps OGG_OPUS_SPS),
            encMain s_ps channels skip (L + skip)
              (maxF32 (L + skip) (to_samples s_ps FRAME_TIME_MS * channels)) ++ tail)
    | none => none
  else none

/-! ## decode.rs -/

/-- One audio packet as seen by the decode loop: `out` is the per-channel
sample count returned by the opus primitive, `data` the `out * channels`
interleaved samples it wrote into `temp_buffer`, `last` is
`packet.last_in_stream()`, `absgp` is `packet.absgp_page()`. -/
structure DecPkt where
  out : ℕ
  data : List ℤ
  last : Bool
  absgp : ℕ
deriving DecidableEq

/-- The decode loop state: the output buffer, the remaining pre-skip
counter, and the running per-channel decoded total `dec_absgsp`. -/
structure DecState where
  buffer : List ℤ
  remSkip : ℕ
  decAbsgsp : ℕ
deriving DecidableEq

/-- One iteration of the decode packet loop.  `none` models a panic: the
subtraction `trimmed_end -= dec_absgsp - absgsp` underflowing, or the slice
`temp_buffer[rem_skip..trimmed_end]` being out of bounds (start past end,
or end past the `MAX_FRAME_SIZE` buffer). -/
def decStep (target channels : ℕ) (st : DecState) (p : DecPkt) : Option DecState :=
  let dec2 := st.decAbsgsp + p.out
  if st.remSkip < p.out then
    let te0 := p.out * channels
    let tr :=
      if p.last then
        let absgsp := calc_sr_u64 p.absgp OGG_OPUS_SPS target
        if absgsp < dec2 then dec2 - absgsp else 0
      else 0
    if tr ≤ te0 then
      let trimmed_end := te0 - tr
      if st.remSkip ≤ trimmed_end ∧ trimmed_end ≤ MAX_FRAME_SIZE then
        some ⟨st.buffer ++ (p.data.take trimmed_end).drop st.remSkip, 0, dec2⟩
      else none
    else none
  else
    some ⟨st.buffer, st.remSkip - p.out, dec2⟩

/-- The `while let Some(packet) = reader.read_packet()?` loop: a reader
failure propagates through `?` (an I/O-class error per the spec's taxonomy);
a packet is decoded by the primitive and folded through `decStep`. -/
def decodeLoop (target channels : ℕ) :
    DecState → List (Except Unit DecPkt) → Option (Except Error DecState)
  | st, [] => some (.ok st)
  | _, .error _ :: _ => some (.error .IOFailure)
  | st, .ok p :: rest =>
    match decStep target channels st p with
    | none => none
    | some st2 => decodeLoop target channels st2 rest

/-- `check_fp`: validate the identification header and extract the channel
byte, the pre-skip rescaled from 48 kHz to the target rate, and the output
gain (little-endian i16 at bytes 16..18, sign-extended to i32). -/
def check_fp (target : ℕ) (d : List ℕ) : Except Error (ℕ × ℕ × ℤ) :=
  if d.length < 19 then .error .MalformedAudio
  else if d.take 8 ≠ OPUS_MAGIC_HEADER then .error .MalformedAudio
  else if d.getD 8 0 ≠ 1 then .error .MalformedAudio
  else
    .ok (d.getD 9 0,
         calc_sr (d.getD 10 0 + 256 * d.getD 11 0) OGG_OPUS_SPS target,
         if d.getD 16 0 + 256 * d.getD 17 0 < 32768
           then (d.getD 16 0 + 256 * d.getD 17 0 : ℕ)
           else (d.getD 16 0 + 256 * d.getD 17 0 : ℕ) - 65536)

/-- `check_sp`: the second packet must be at least 12 bytes and start with
"OpusTags" (a byte sequence that fails UTF-8 decoding in the source also
differs from the magic as bytes, so the two rejections coincide). -/
def check_sp (s : List ℕ) : Except Error Unit :=
  if s.length < 12 then .error .MalformedAudio
  else if s.take 8 ≠ [79, 112, 117, 115, 84, 97, 103, 115] then .error .MalformedAudio
  else .ok ()

/-- `decode::<_, TARGET_SPS>`.  `fp` and `sp` are the results of the two
`read_packet_expected` calls (reader failure or packet bytes), `pkts` the
results of the subsequent `read_packet` calls.  The opus decoder
construction and `set_gain` are the external primitive and always succeed
for a validated configuration.  The outer `Option` is `none` for a panic
inside the loop; an unsupported `TARGET_SPS` is a compile-time panic in the
source, also modelled as `none`. -/
def decodeModel (target : ℕ) (fp sp : Except Unit (List ℕ))
    (pkts : List (Except Unit DecPkt)) : Option (Except Error (List ℤ × ℕ)) :=
  if (s_ps_to_audiopus target).isNone then none
  else
    match fp with
    | .error _ => some (.error .MalformedAudio)
    | .ok d =>
      match check_fp target d with
      | .error e => some (.error e)
      | .ok (channels, pre_skip, _gain) =>
        if channels = 1 ∨ channels = 2 then
          match sp with
          | .error _ => some (.error .MalformedAudio)
          | .ok s =>
            match check_sp s with
            | .error e => some (.error e)
            | .ok _ =>
              match decodeLoop target channels ⟨[], pre_skip, 0⟩ pkts with
              | none => none
              | some (.error e) => some (.error e)
              | some (.ok st) => some (.ok (st.buffer, channels))
        else some (.error .MalformedAudio)

/-- Correspondence between the frames the encoder handed to the opus
primitive and the packets the decoder receives back for the same stream at
the same rate: the primitive returns per channel exactly the per-channel
sample count that was submitted, the decoded data has that interleaved
length, and flag and granule position travel through the container
unchanged. -/
def MatchesDec (channels : ℕ) (eps : List EncPkt) (dps : List DecPkt) : Prop :=
  List.Forall₂
    (fun e d => d.out = e.flen / channels ∧ d.data.length = e.flen ∧
      d.last = e.eos ∧ d.absgp = e.gran) eps dps

/-- The spec's reading of the stored pre-skip (§3 "derived by rescaling the
encoder's native lookahead (which is always reported in 48 kHz-equivalent
terms by the primitive) down to the configured rate"), for comparison with
the header the code actually writes. -/
def specPreSkipDown (lookahead s_ps : ℕ) : ℕ :=
  calc_sr lookahead OGG_OPUS_SPS s_ps

/-- The supported sample-rate enumeration, as a list. -/
def supportedRates : List ℕ := [8000, 12000, 16000, 24000, 48000]

end OggOpus

namespace OggOpus

/-! ## General facts about the conversion arithmetic -/

theorem supported_pos {r : ℕ} (h : r ∈ supportedRates) : 0 < r := by
  fin_cases h <;> norm_num

theorem supported_le {r : ℕ} (h : r ∈ supportedRates) : r ≤ 48000 := by
  fin_cases h <;> norm_num

theorem supported_isSome {r : ℕ} (h : r ∈ supportedRates) :
    (s_ps_to_audiopus r).isSome := by
  fin_cases h <;> decide

theorem calc_sr_u64_no_wrap (x a b : ℕ) (hx : x * b < 2 ^ 64) :
    calc_sr_u64 x a b = x * b / a := by
  unfold calc_sr_u64
  rw [Nat.mod_eq_of_lt hx]

theorem calc_sr_u64_rt_eq (x a b : ℕ) (hx : x * b < 2 ^ 64) :
    calc_sr_u64 (calc_sr_u64 x a b) b a = x * b / a * a / b := by
  rw [calc_sr_u64_no_wrap x a b hx,
    calc_sr_u64_no_wrap _ b a (lt_of_le_of_lt (Nat.div_mul_le_self _ _) hx)]

theorem calc_sr_no_wrap (v o d : ℕ) (h32 : v * d < 2 ^ 32) (h16 : v * d / o < 2 ^ 16) :
    calc_sr v o d = v * d / o := by
  unfold calc_sr
  rw [Nat.mod_eq_of_lt h32, Nat.mod_eq_of_lt h16]

/-- C6 (amended): rescaling with `calc_sr_u64` from a supported rate `a` to a
supported rate `b` and back never overshoots, loses at most 5 units in
general (the worst supported pair being 48000 → 8000 → 48000), and loses at
most 1 unit whenever the first rescaling is upward (`a ≤ b`), provided the
64-bit product does not overflow. -/
theorem c6_calc_sr_u64_roundtrip (a b x : ℕ)
    (ha : a ∈ supportedRates) (hb : b ∈ supportedRates)
    (hx : x * b < 2 ^ 64) :
    calc_sr_u64 (calc_sr_u64 x a b) b a ≤ x ∧
      x - calc_sr_u64 (calc_sr_u64 x a b) b a ≤ 5 ∧
      (a ≤ b → x - calc_sr_u64 (calc_sr_u64 x a b) b a ≤ 1) := by
  fin_cases ha <;> fin_cases hb <;>
    · rw [calc_sr_u64_rt_eq _ _ _ hx]
      omega

theorem c6_calc_sr_u64_roundtrip_witness :
    48000 ∈ supportedRates ∧ 8000 ∈ supportedRates ∧ 11 * 8000 < 2 ^ 64 ∧
      (calc_sr_u64 (calc_sr_u64 11 48000 8000) 8000 48000 ≤ 11 ∧
        11 - calc_sr_u64 (calc_sr_u64 11 48000 8000) 8000 48000 ≤ 5 ∧
        (48000 ≤ 8000 → 11 - calc_sr_u64 (calc_sr_u64 11 48000 8000) 8000 48000 ≤ 1)) :=
  ⟨by decide, by decide, by norm_num,
    c6_calc_sr_u64_roundtrip 48000 8000 11 (by decide) (by decide) (by norm_num)⟩

/-- C6 counterexample: the claim's 1-unit tolerance fails: rescaling 11 from
48000 Hz to 8000 Hz and back yields 6, five units below 11. -/
theorem c6_counterexample :
    calc_sr_u64 (calc_sr_u64 11 48000 8000) 8000 48000 = 6 ∧
      ¬ (11 - calc_sr_u64 (calc_sr_u64 11 48000 8000) 8000 48000 ≤ 1) := by
  constructor
  · norm_num [calc_sr_u64]
  · norm_num [calc_sr_u64]

/-- C3 (amended): the pre-skip value `encode` writes at bytes 10–11 of the
identification header is expressed in the canonical 48 kHz domain: it is the
encoder primitive's native lookahead (reported in the stream's own
sample-rate domain) rescaled UP to 48 kHz — not, as the claim has it, a
48 kHz-reported lookahead rescaled down to the configured rate. -/
theorem c3_preskip_header_48k (s_ps channels skip : ℕ)
    (hS : s_ps ∈ supportedRates)
    (hw : skip * OGG_OPUS_SPS / s_ps < 2 ^ 16) :
    (opusHead s_ps channels (calc_sr skip s_ps OGG_OPUS_SPS)).getD 10 0 +
        256 * (opusHead s_ps channels (calc_sr skip s_ps OGG_OPUS_SPS)).getD 11 0 =
      skip * OGG_OPUS_SPS / s_ps := by
  have hpos := supported_pos hS
  have hle := supported_le hS
  have h32 : skip * OGG_OPUS_SPS < 2 ^ 32 := by
    have h1 : skip * OGG_OPUS_SPS < 2 ^ 16 * s_ps := (Nat.div_lt_iff_lt_mul hpos).mp hw
    have h2 : 2 ^ 16 * s_ps ≤ 2 ^ 16 * 48000 := Nat.mul_le_mul_left _ hle
    calc skip * OGG_OPUS_SPS < 2 ^ 16 * s_ps := h1
      _ ≤ 2 ^ 16 * 48000 := h2
      _ < 2 ^ 32 := by norm_num
  rw [calc_sr_no_wrap _ _ _ h32 hw]
  simp only [opusHead, List.getD_cons_succ, List.getD_cons_zero]
  generalize skip * OGG_OPUS_SPS / s_ps = v at hw ⊢
  omega

theorem c3_preskip_header_48k_witness :
    8000 ∈ supportedRates ∧ 312 * OGG_OPUS_SPS / 8000 < 2 ^ 16 ∧
      (opusHead 8000 1 (calc_sr 312 8000 OGG_OPUS_SPS)).getD 10 0 +
          256 * (opusHead 8000 1 (calc_sr 312 8000 OGG_OPUS_SPS)).getD 11 0 =
        312 * OGG_OPUS_SPS / 8000 :=
  ⟨by decide, by norm_num [OGG_OPUS_SPS],
    c3_preskip_header_48k 8000 1 312 (by decide) (by norm_num [OGG_OPUS_SPS])⟩

/-- C3 counterexample: at 8000 Hz with native lookahead 312 the header stores
1872 (= 312·48000/8000, the 48 kHz-domain value), not the claim's
down-rescaled 52 (= 312·8000/48000). -/
theorem c3_counterexample :
    (opusHead 8000 1 (calc_sr 312 8000 OGG_OPUS_SPS)).getD 10 0 +
        256 * (opusHead 8000 1 (calc_sr 312 8000 OGG_OPUS_SPS)).getD 11 0 = 1872 ∧
      specPreSkipDown 312 8000 = 52 ∧ (1872 : ℕ) ≠ 52 := by
  refine ⟨?_, ?_, by decide⟩
  · norm_num [opusHead, calc_sr, OGG_OPUS_SPS]
  · norm_num [specPreSkipDown, calc_sr, OGG_OPUS_SPS]

/-- C9 (amended): a channel count of 0 does configure the opus primitive as
mono, but the channel-count byte at offset 9 of the identification header is
the configured count written verbatim — so an invocation with channel count
0 emits the byte 0 there. -/
theorem c9_channels_zero (s_ps skip_48 : ℕ) :
    opus_channels 0 = Channels.mono ∧
      ∀ channels : ℕ, (opusHead s_ps channels skip_48).getD 9 0 = channels := by
  refine ⟨by decide, fun channels => ?_⟩
  simp [opusHead, List.getD_cons_succ, List.getD_cons_zero]

/-- C9 counterexample: with channel count 0 the emitted header carries 0 at
offset 9, contradicting "never emitted as 0". -/
theorem c9_counterexample :
    (opusHead 48000 0 312).getD 9 0 = 0 ∧ opus_channels 0 = Channels.mono := by
  decide

end OggOpus

namespace OggOpus

/-! ## Decoder front-end and error mapping -/

theorem check_fp_malformed (target : ℕ) (d : List ℕ)
    (h : d.length < 19 ∨ d.take 8 ≠ OPUS_MAGIC_HEADER ∨ d.getD 8 0 ≠ 1) :
    check_fp target d = .error .MalformedAudio := by
  unfold check_fp
  split_ifs with h1 h2 h3
  · rfl
  · rfl
  · rfl
  · rcases h with h | h | h
    · exact absurd h h1
    · exact absurd h h2
    · exact absurd h h3

/-- C7: a missing first container packet, or a first packet shorter than 19
bytes, or one whose first 8 bytes are not "OpusHead", or whose version byte
(offset 8) is not 1, makes `decode` return `MalformedAudio`; in particular
any first packet of at most 10 bytes fails this way (and the model is a
total function — no panic or hang). -/
theorem c7_malformed_first_packet :
    (∀ target (sp : Except Unit (List ℕ)) pkts, (s_ps_to_audiopus target).isSome →
        decodeModel target (.error ()) sp pkts = some (.error .MalformedAudio)) ∧
      (∀ target d (sp : Except Unit (List ℕ)) pkts, (s_ps_to_audiopus target).isSome →
        d.length < 19 ∨ d.take 8 ≠ OPUS_MAGIC_HEADER ∨ d.getD 8 0 ≠ 1 →
        decodeModel target (.ok d) sp pkts = some (.error .MalformedAudio)) ∧
      (∀ target d (sp : Except Unit (List ℕ)) pkts, (s_ps_to_audiopus target).isSome →
        d.length ≤ 10 →
        decodeModel target (.ok d) sp pkts = some (.error .MalformedAudio)) := by
  refine ⟨fun target sp pkts ht => ?_, fun target d sp pkts ht h => ?_,
    fun target d sp pkts ht h => ?_⟩
  · unfold decodeModel
    simp [Option.isNone_iff_eq_none, Option.isSome_iff_ne_none.mp ht]
  · unfold decodeModel
    simp [Option.isNone_iff_eq_none, Option.isSome_iff_ne_none.mp ht,
      check_fp_malformed target d h]
  · unfold decodeModel
    simp [Option.isNone_iff_eq_none, Option.isSome_iff_ne_none.mp ht,
      check_fp_malformed target d (Or.inl (by omega))]

theorem c7_malformed_first_packet_witness :
    (s_ps_to_audiopus 48000).isSome ∧
      ([] : List ℕ).length ≤ 10 ∧
      decodeModel 48000 (.ok []) (.ok []) [] = some (.error .MalformedAudio) :=
  ⟨by decide, by decide,
    c7_malformed_first_packet.2.2 48000 [] (.ok []) [] (by decide) (by decide)⟩

/-- C8 (amended): a failure of the container reader while reading the first
or the second packet is converted to `MalformedAudio` by `decode` (the
source maps those two reads with `map_err(|_| Error::MalformedAudio)`); only
a reader failure inside the audio-packet loop propagates as an I/O-class
error. -/
theorem c8_reader_error_mapping :
    (∀ target (sp : Except Unit (List ℕ)) pkts, (s_ps_to_audiopus target).isSome →
        decodeModel target (.error ()) sp pkts = some (.error .MalformedAudio)) ∧
      (∀ target d channels pre_skip gain pkts, (s_ps_to_audiopus target).isSome →
        check_fp target d = .ok (channels, pre_skip, gain) →
        channels = 1 ∨ channels = 2 →
        decodeModel target (.ok d) (.error ()) pkts = some (.error .MalformedAudio)) ∧
      (∀ target channels st rest,
        decodeLoop target channels st (.error () :: rest) =
          some (.error .IOFailure)) := by
  refine ⟨fun target sp pkts ht => ?_, fun target d channels pre_skip gain pkts ht hfp hch => ?_,
    fun target channels st rest => rfl⟩
  · unfold decodeModel
    simp [Option.isNone_iff_eq_none, Option.isSome_iff_ne_none.mp ht]
  · unfold decodeModel
    simp [Option.isNone_iff_eq_none, Option.isSome_iff_ne_none.mp ht, hfp, hch]

theorem c8_reader_error_mapping_witness :
    (s_ps_to_audiopus 48000).isSome ∧
      check_fp 48000 (opusHead 48000 1 0) = .ok (1, 0, 0) ∧
      ((1 : ℕ) = 1 ∨ (1 : ℕ) = 2) ∧
      decodeModel 48000 (.ok (opusHead 48000 1 0)) (.error ()) [] =
        some (.error .MalformedAudio) :=
  ⟨by decide, by rfl, Or.inl rfl,
    c8_reader_error_mapping.2.1 48000 (opusHead 48000 1 0) 1 0 0 [] (by decide)
      (by rfl) (Or.inl rfl)⟩

/-- C8 counterexample: a reader failure on the very first packet comes back
as `MalformedAudio`, not as the unchanged I/O-class error the claim
requires. -/
theorem c8_counterexample :
    decodeModel 48000 (.error ()) (.ok []) [] = some (.error .MalformedAudio) ∧
      Error.MalformedAudio ≠ Error.IOFailure := by
  constructor
  · rfl
  · decide

end OggOpus

namespace OggOpus

/-! ## The decode loop: pre-skip removal and slice safety -/

theorem decodeLoop_mono_noLast (target : ℕ) (ps : List DecPkt)
    (hall : ∀ p ∈ ps, p.last = false ∧ p.data.length = p.out ∧
      p.out ≤ MAX_FRAME_SAMPLES) :
    ∀ skip dec B, decodeLoop target 1 ⟨B, skip, dec⟩ (ps.map Except.ok) =
      some (.ok ⟨B ++ ((ps.map fun p => p.data).flatten).drop skip,
                 skip - (ps.map fun p => p.out).sum,
                 dec + (ps.map fun p => p.out).sum⟩) := by
  induction ps with
  | nil => simp [decodeLoop]
  | cons p rest ih =>
    intro skip dec B
    obtain ⟨hlast, hlen, hbound⟩ := hall p (by simp)
    have hrest := fun q hq => hall q (List.mem_cons_of_mem p hq)
    by_cases hskip : skip < p.out
    · have hstep : decStep target 1 ⟨B, skip, dec⟩ p =
          some ⟨B ++ p.data.drop skip, 0, dec + p.out⟩ := by
        simp only [decStep, hlast, Bool.false_eq_true, if_false, mul_one,
          Nat.sub_zero]
        rw [if_pos hskip, if_pos (Nat.zero_le _),
          if_pos ⟨Nat.le_of_lt hskip, by
            have := hbound
            norm_num [MAX_FRAME_SIZE, MAX_NUM_CHANNELS, MAX_FRAME_SAMPLES]
              at this ⊢
            omega⟩]
        rw [← hlen, List.take_length]
      simp only [List.map_cons, decodeLoop, hstep]
      rw [ih hrest 0 (dec + p.out) (B ++ p.data.drop skip)]
      simp only [List.flatten_cons, List.sum_cons, List.drop_zero,
        List.drop_append_eq_append_drop, hlen, List.append_assoc,
        Option.some.injEq, Except.ok.injEq, DecState.mk.injEq]
      refine ⟨?_, by omega, by omega⟩
      rw [Nat.sub_eq_zero_of_le (Nat.le_of_lt hskip), List.drop_zero]
    · have hstep : decStep target 1 ⟨B, skip, dec⟩ p =
          some ⟨B, skip - p.out, dec + p.out⟩ := by
        simp only [decStep]
        rw [if_neg hskip]
      simp only [List.map_cons, decodeLoop, hstep]
      rw [ih hrest (skip - p.out) (dec + p.out) B]
      simp only [List.flatten_cons, List.sum_cons,
        List.drop_append_eq_append_drop, hlen, Option.some.injEq,
        Except.ok.injEq, DecState.mk.injEq]
      refine ⟨?_, by omega, by omega⟩
      rw [show p.data.drop skip = ([] : List ℤ) from
        List.drop_eq_nil_of_le (by omega), List.nil_append]

end OggOpus

namespace OggOpus

/-- C5 (amended): the decode loop keeps a remaining-skip counter initialized
to the rescaled pre-skip, consumes a whole frame (decrementing the counter
by its per-channel count) when that count is at most the counter, and
otherwise appends the samples after offset `rem_skip` and zeroes the
counter; the offset is an INTERLEAVED index, so for mono streams (shown
here, away from the end-of-stream trim) the loop discards exactly the
rescaled pre-skip leading samples — for stereo the partial frame is cut by
`rem_skip` interleaved (not per-channel) samples, refuting the claim's
"per channel" accounting. -/
theorem c5_preskip_removal_mono (target pre_skip : ℕ) (ps : List DecPkt)
    (hall : ∀ p ∈ ps, p.last = false ∧ p.data.length = p.out ∧
      p.out ≤ MAX_FRAME_SAMPLES) :
    decodeLoop target 1 ⟨[], pre_skip, 0⟩ (ps.map Except.ok) =
      some (.ok ⟨((ps.map fun p => p.data).flatten).drop pre_skip,
                 pre_skip - (ps.map fun p => p.out).sum,
                 (ps.map fun p => p.out).sum⟩) := by
  have h := decodeLoop_mono_noLast target ps hall pre_skip 0 []
  simpa using h

theorem c5_preskip_removal_mono_witness :
    (∀ p ∈ [(⟨3, [1, 2, 3], false, 0⟩ : DecPkt)], p.last = false ∧
        p.data.length = p.out ∧ p.out ≤ MAX_FRAME_SAMPLES) ∧
      decodeLoop 48000 1 ⟨[], 2, 0⟩
          ([(⟨3, [1, 2, 3], false, 0⟩ : DecPkt)].map Except.ok) =
        some (.ok ⟨(([(⟨3, [1, 2, 3], false, 0⟩ : DecPkt)].map
            fun p => p.data).flatten).drop 2,
          2 - ([(⟨3, [1, 2, 3], false, 0⟩ : DecPkt)].map fun p => p.out).sum,
          ([(⟨3, [1, 2, 3], false, 0⟩ : DecPkt)].map fun p => p.out).sum⟩) :=
  ⟨by decide,
    c5_preskip_removal_mono 48000 2 [⟨3, [1, 2, 3], false, 0⟩] (by decide)⟩

/-- C5 counterexample: stereo, rescaled pre-skip 1, one 2-samples-per-channel
frame (4 interleaved samples): the loop appends 3 interleaved samples
(offset 1 applied in interleaved units), while discarding "the rescaled
pre-skip number of samples per channel" would leave 4 - 1·2 = 2. -/
theorem c5_counterexample :
    decodeLoop 48000 2 ⟨[], 1, 0⟩ [.ok ⟨2, [10, 20, 30, 40], false, 0⟩] =
        some (.ok ⟨[20, 30, 40], 0, 2⟩) ∧
      ([20, 30, 40] : List ℤ).length ≠ 4 - 1 * 2 := by
  constructor
  · rfl
  · decide

/-- C10 (amended): in the decode packet loop, for channel count 1 or 2 and a
frame within the codec's `MAX_FRAME_SAMPLES` ceiling, the slice bounds
satisfy `rem_skip ≤ trimmed_end ≤ MAX_FRAME_SIZE` and the step cannot panic
PROVIDED the granule undershoot of a last packet,
`dec_absgsp - absgsp`, does not exceed the frame's appended region
`out_size * channels - rem_skip` (as holds for streams this encoder
produces); for an arbitrary on-wire granule position the subtraction can
underflow — see the counterexample. -/
theorem c10_step_bounds (target channels : ℕ) (st : DecState) (p : DecPkt)
    (hc1 : 1 ≤ channels) (hc2 : channels ≤ MAX_NUM_CHANNELS)
    (hout : p.out ≤ MAX_FRAME_SAMPLES)
    (hskip : st.remSkip < p.out)
    (hunder : p.last = true →
      st.decAbsgsp + p.out ≤ calc_sr_u64 p.absgp OGG_OPUS_SPS target +
        (p.out * channels - st.remSkip)) :
    ∃ tr, tr + st.remSkip ≤ p.out * channels ∧
      st.remSkip ≤ p.out * channels - tr ∧
      p.out * channels - tr ≤ MAX_FRAME_SIZE ∧
      decStep target channels st p =
        some ⟨st.buffer ++ ((p.data.take (p.out * channels - tr)).drop st.remSkip),
              0, st.decAbsgsp + p.out⟩ := by
  have hskc : st.remSkip < p.out * channels := by
    calc st.remSkip < p.out := hskip
      _ = p.out * 1 := (mul_one _).symm
      _ ≤ p.out * channels := Nat.mul_le_mul_left _ hc1
  have hsz : p.out * channels ≤ MAX_FRAME_SIZE := by
    have : p.out * channels ≤ MAX_FRAME_SAMPLES * MAX_NUM_CHANNELS :=
      Nat.mul_le_mul hout hc2
    simpa [MAX_FRAME_SIZE] using this
  cases hlast : p.last with
  | true =>
    have hu := hunder hlast
    set A := calc_sr_u64 p.absgp OGG_OPUS_SPS target with hA
    by_cases hlt : A < st.decAbsgsp + p.out
    · refine ⟨st.decAbsgsp + p.out - A, by omega, by omega, by omega, ?_⟩
      simp only [decStep, hlast, ← hA]
      rw [if_pos hskip]
      simp only [if_true]
      rw [if_pos hlt,
        if_pos (by omega : st.decAbsgsp + p.out - A ≤ p.out * channels),
        if_pos ⟨by omega, by omega⟩]
    · refine ⟨0, by omega, by omega, by omega, ?_⟩
      simp only [decStep, hlast, ← hA]
      rw [if_pos hskip]
      simp only [if_true]
      rw [if_neg hlt, if_pos (Nat.zero_le _), if_pos ⟨by omega, by omega⟩]
  | false =>
    refine ⟨0, by omega, by omega, by omega, ?_⟩
    simp only [decStep, hlast, Bool.false_eq_true, if_false]
    rw [if_pos hskip, if_pos (Nat.zero_le _), if_pos ⟨by omega, by omega⟩]

theorem c10_step_bounds_witness :
    1 ≤ 1 ∧ 1 ≤ MAX_NUM_CHANNELS ∧
      (⟨120, List.replicate 120 0, true, 48000⟩ : DecPkt).out ≤ MAX_FRAME_SAMPLES ∧
      (⟨[], 0, 0⟩ : DecState).remSkip <
        (⟨120, List.replicate 120 0, true, 48000⟩ : DecPkt).out ∧
      (∃ tr, tr + (⟨[], 0, 0⟩ : DecState).remSkip ≤
          (⟨120, List.replicate 120 0, true, 48000⟩ : DecPkt).out * 1 ∧
        (⟨[], 0, 0⟩ : DecState).remSkip ≤
          (⟨120, List.replicate 120 0, true, 48000⟩ : DecPkt).out * 1 - tr ∧
        (⟨120, List.replicate 120 0, true, 48000⟩ : DecPkt).out * 1 - tr ≤
          MAX_FRAME_SIZE ∧
        decStep 48000 1 ⟨[], 0, 0⟩ ⟨120, List.replicate 120 0, true, 48000⟩ =
          some ⟨(⟨[], 0, 0⟩ : DecState).buffer ++
              (((⟨120, List.replicate 120 0, true, 48000⟩ : DecPkt).data.take
                ((⟨120, List.replicate 120 0, true, 48000⟩ : DecPkt).out * 1 - tr)).drop
                (⟨[], 0, 0⟩ : DecState).remSkip),
            0, (⟨[], 0, 0⟩ : DecState).decAbsgsp +
              (⟨120, List.replicate 120 0, true, 48000⟩ : DecPkt).out⟩) :=
  ⟨le_refl 1, by decide, by decide, by decide,
    c10_step_bounds 48000 1 ⟨[], 0, 0⟩ ⟨120, List.replicate 120 0, true, 48000⟩
      (le_refl 1) (by decide) (by decide) (by decide)
      (fun _ => by norm_num [calc_sr_u64])⟩

/-- C10 counterexample: two successfully decoded 120-sample mono packets with
the last packet's on-wire granule position 0 (far below the running total
240) make `trimmed_end -= dec_absgsp - absgsp` underflow: the decode loop
panics, refuting the claimed bounds for arbitrary granule positions. -/
theorem c10_counterexample :
    decodeLoop 48000 1 ⟨[], 0, 0⟩
        [.ok ⟨120, List.replicate 120 0, false, 120⟩,
         .ok ⟨120, List.replicate 120 0, true, 0⟩] = none := by
  rfl

end OggOpus

namespace OggOpus

/-! ## Facts about the f32 model -/

theorem rnte_bounds (q : ℚ) :
    q - 1 / 2 ≤ (rnte q : ℚ) ∧ (rnte q : ℚ) ≤ q + 1 / 2 := by
  have hf0 : 0 ≤ Int.fract q := Int.fract_nonneg q
  have hf1 : Int.fract q < 1 := Int.fract_lt_one q
  have hq := Int.floor_add_fract q
  unfold rnte
  split_ifs with h1 h2 h3 <;>
    (constructor <;> push_cast <;> linarith)

theorem rnte_intCast (n : ℤ) : rnte (n : ℚ) = n := by
  unfold rnte
  rw [Int.fract_intCast, if_pos (by norm_num)]
  exact Int.floor_intCast n

theorem f32round_natCast {n : ℕ} (h : n < 2 ^ 24) : f32round (n : ℚ) = n := by
  rcases Nat.eq_zero_or_pos n with h0 | h0
  · subst h0
    simp [f32round]
  · have hq : (0 : ℚ) < n := by exact_mod_cast h0
    have hle : Nat.log 2 n ≤ 23 := by
      have h24 : Nat.log 2 n < 24 := Nat.log_lt_of_lt_pow (by omega) h
      omega
    have hexp : (23 : ℤ) - Int.log 2 (n : ℚ) = ((23 - Nat.log 2 n : ℕ) : ℤ) := by
      rw [Int.log_natCast]
      omega
    have hexp2 : Int.log 2 (n : ℚ) - 23 = -(((23 - Nat.log 2 n : ℕ) : ℤ)) := by
      rw [Int.log_natCast]
      omega
    have hcast : (n : ℚ) * 2 ^ ((23 : ℤ) - Int.log 2 (n : ℚ)) =
        ((n * 2 ^ (23 - Nat.log 2 n) : ℕ) : ℤ) := by
      rw [hexp, zpow_natCast]
      push_cast
      ring
    unfold f32round
    rw [if_neg (not_le.mpr hq), hcast, rnte_intCast, hexp2, zpow_neg]
    push_cast
    rw [← zpow_natCast (2 : ℚ) (23 - Nat.log 2 n)]
    field_simp

theorem floor_f32round_div_le (a b : ℕ) (ha0 : 0 < a) (ha : a < 2 ^ 24)
    (hb : 0 < b) : ⌊f32round ((a : ℚ) / b)⌋ ≤ (a / b : ℕ) := by
  have hb0 : (0 : ℚ) < b := by exact_mod_cast hb
  have ha0q : (0 : ℚ) < a := by exact_mod_cast ha0
  set q : ℚ := (a : ℚ) / b with hqdef
  have hq0 : 0 < q := div_pos ha0q hb0
  set e : ℤ := Int.log 2 q with he
  have hlow : (2 : ℚ) ^ e ≤ q := Int.zpow_log_le_self (by norm_num) hq0
  have hqlt : q < 2 ^ (24 : ℕ) / b := by
    rw [hqdef]
    gcongr
    exact_mod_cast ha
  have hulp : (2 : ℚ) ^ (e - 24) < 1 / b := by
    have h2e : (2 : ℚ) ^ e < 2 ^ (24 : ℕ) / b := lt_of_le_of_lt hlow hqlt
    have hpos : (0 : ℚ) < (2 : ℚ) ^ (-(24 : ℤ)) := zpow_pos (by norm_num) _
    calc (2 : ℚ) ^ (e - 24) = 2 ^ e * 2 ^ (-(24 : ℤ)) := by
          rw [← zpow_add₀ (by norm_num : (2 : ℚ) ≠ 0), sub_eq_add_neg]
      _ < (2 ^ (24 : ℕ) / b) * 2 ^ (-(24 : ℤ)) := mul_lt_mul_of_pos_right h2e hpos
      _ = 1 / b := by
          rw [zpow_neg, show (2 : ℚ) ^ (24 : ℤ) = 2 ^ (24 : ℕ) from zpow_natCast 2 24]
          field_simp
          ring
  have hrb := (rnte_bounds (q * 2 ^ ((23 : ℤ) - e))).2
  have hppos : (0 : ℚ) < 2 ^ (e - 23) := zpow_pos (by norm_num) _
  have hr : f32round q ≤ q + 2 ^ (e - 24) := by
    unfold f32round
    rw [if_neg (not_le.mpr hq0), ← he]
    calc (rnte (q * 2 ^ ((23 : ℤ) - e)) : ℚ) * 2 ^ (e - 23)
        ≤ (q * 2 ^ ((23 : ℤ) - e) + 1 / 2) * 2 ^ (e - 23) :=
          mul_le_mul_of_nonneg_right hrb (le_of_lt hppos)
      _ = q * (2 ^ ((23 : ℤ) - e) * 2 ^ (e - 23)) + (1 / 2) * 2 ^ (e - 23) := by
          ring
      _ = q + 2 ^ (e - 24) := by
          rw [← zpow_add₀ (by norm_num : (2 : ℚ) ≠ 0),
            show (23 : ℤ) - e + (e - 23) = 0 from by ring, zpow_zero, mul_one,
            show (1 : ℚ) / 2 = 2 ^ (-(1 : ℤ)) from by norm_num,
            ← zpow_add₀ (by norm_num : (2 : ℚ) ≠ 0),
            show -(1 : ℤ) + (e - 23) = e - 24 from by ring]
  have hmodlt : a % b < b := Nat.mod_lt a hb
  have hdecomp : (a : ℚ) = b * ((a / b : ℕ) : ℚ) + ((a % b : ℕ) : ℚ) := by
    exact_mod_cast (Nat.div_add_mod a b).symm
  have hqk : q = ((a / b : ℕ) : ℚ) + ((a % b : ℕ) : ℚ) / b := by
    rw [hqdef, hdecomp]
    field_simp
    ring
  have hfrac : ((a % b : ℕ) : ℚ) / b + 1 / b ≤ 1 := by
    rw [div_add_div_same, div_le_one hb0]
    exact_mod_cast Nat.succ_le_of_lt hmodlt
  have hfin : f32round q < ((a / b : ℕ) : ℚ) + 1 := by
    calc f32round q ≤ q + 2 ^ (e - 24) := hr
      _ = ((a / b : ℕ) : ℚ) + (((a % b : ℕ) : ℚ) / b + 2 ^ (e - 24)) := by
          rw [hqk]
          ring
      _ < ((a / b : ℕ) : ℚ) + 1 := by linarith
  have hfl : ⌊f32round q⌋ < ((a / b : ℕ) : ℤ) + 1 :=
    Int.floor_lt.mpr (by push_cast; exact hfin)
  omega

theorem maxF32_le (tot fs : ℕ) (h0 : 0 < tot) (h24 : tot < 2 ^ 24)
    (hf0 : 0 < fs) (hf24 : fs < 2 ^ 24) : maxF32 tot fs ≤ tot / fs := by
  unfold maxF32 f32div f32ofNat
  rw [f32round_natCast h24, f32round_natCast hf24]
  exact Int.toNat_le.mpr (floor_f32round_div_le tot fs h0 h24 hf0)

theorem maxF32_mul_le (tot fs : ℕ) (h0 : 0 < tot) (h24 : tot < 2 ^ 24)
    (hf0 : 0 < fs) (hf24 : fs < 2 ^ 24) : maxF32 tot fs * fs ≤ tot :=
  le_trans (Nat.mul_le_mul_right fs (maxF32_le tot fs h0 h24 hf0 hf24))
    (Nat.div_mul_le_self tot fs)

end OggOpus

namespace OggOpus

/-! ## The f32 frame-count bug (C4) -/

theorem f32ofNat_16777919 : f32ofNat 16777919 = 16777920 := by
  unfold f32ofNat f32round
  have hlog : Int.log 2 ((16777919 : ℕ) : ℚ) = 24 := by
    rw [Int.log_natCast,
      Nat.log_eq_of_pow_le_of_lt_pow (by norm_num : 2 ^ 24 ≤ 16777919)
        (by norm_num : 16777919 < 2 ^ (24 + 1))]
    norm_num
  rw [if_neg (by norm_num : ¬((16777919 : ℕ) : ℚ) ≤ 0), hlog]
  have harg : ((16777919 : ℕ) : ℚ) * 2 ^ ((23 : ℤ) - 24) = 16777919 / 2 := by
    rw [show (23 : ℤ) - 24 = -1 from by norm_num, zpow_neg, zpow_one]
    push_cast
    ring
  have hfl : ⌊(16777919 : ℚ) / 2⌋ = 8388959 := Int.floor_eq_iff.mpr (by norm_num)
  have hfract : Int.fract ((16777919 : ℚ) / 2) = 1 / 2 := by
    have h := Int.floor_add_fract ((16777919 : ℚ) / 2)
    rw [hfl] at h
    push_cast at h
    linarith
  have hrnte : rnte ((16777919 : ℚ) / 2) = 8388960 := by
    unfold rnte
    rw [hfract, hfl]
    norm_num
  rw [harg, hrnte, show (24 : ℤ) - 23 = 1 from by norm_num, zpow_one]
  norm_num

theorem maxF32_16777919_960 : maxF32 16777919 960 = 17477 := by
  have h960 : f32ofNat 960 = ((960 : ℕ) : ℚ) := f32round_natCast (by norm_num)
  have hq : f32ofNat 16777919 / f32ofNat 960 = ((17477 : ℕ) : ℚ) := by
    rw [f32ofNat_16777919, h960]
    norm_num
  unfold maxF32 f32div
  rw [hq, f32round_natCast (by norm_num : (17477 : ℕ) < 2 ^ 24)]
  norm_num
  rfl

theorem encodeModel_none_of_overshoot (s_ps channels skip L : ℕ)
    (h : ¬ (maxF32 (L + skip) (to_samples s_ps FRAME_TIME_MS * channels) *
        (to_samples s_ps FRAME_TIME_MS * channels) ≤ L + skip)) :
    encodeModel s_ps channels skip L = none := by
  unfold encodeModel
  split_ifs with h1
  · rfl
  · rfl

/-- C4 (code bug): with total_samples = 16777607 + 312 = 2^24 + 703 and
frame_size = 960 (48 kHz mono), the f32 computation
`(tot_samples as f32 / frame_size as f32).floor() as usize` yields 17477
while the exact floor is 17476: `16777919 as f32` rounds up to 16777920
(tie to even at 24-bit precision) and 16777920/960 = 17477 exactly.  Then
`max * frame_size` EXCEEDS `total_samples`, the main loop reads one sample
past the input (and the source's own
`assert!(last_sample <= audio.len() + skip_us)` is violated), so `encode`
panics — modelled by `encodeModel = none`. -/
theorem c4_f32_frame_count_bug :
    maxF32 (16777607 + 312) 960 = 17477 ∧
      (16777607 + 312) / 960 = 17476 ∧
      16777607 + 312 < maxF32 (16777607 + 312) 960 * 960 ∧
      encodeModel 48000 1 312 16777607 = none := by
  have hm : maxF32 (16777607 + 312) 960 = 17477 := by
    norm_num [maxF32_16777919_960]
  refine ⟨hm, by norm_num, by rw [hm]; norm_num, ?_⟩
  apply encodeModel_none_of_overshoot
  rw [show to_samples 48000 FRAME_TIME_MS * 1 = 960 from rfl,
    show (16777607 + 312 : ℕ) = 16777919 from rfl, maxF32_16777919_960]
  norm_num

end OggOpus

namespace OggOpus

/-! ## Frame-size arithmetic for supported configurations -/

theorem calc_fr_size_s0_pos {s_ps channels : ℕ} (hS : s_ps ∈ supportedRates)
    (hch : 1 ≤ channels) : 0 < calc_fr_size MIN_FRAME_MICROS channels s_ps := by
  fin_cases hS <;>
    · simp only [calc_fr_size, MIN_FRAME_MICROS]
      omega

theorem calc_fr_size_s0_le {s_ps channels : ℕ} (hS : s_ps ∈ supportedRates)
    (hch2 : channels ≤ 2) :
    calc_fr_size MIN_FRAME_MICROS channels s_ps ≤ MAX_25_SIZE := by
  fin_cases hS <;>
    · simp only [calc_fr_size, MIN_FRAME_MICROS, MAX_25_SIZE, MAX_NUM_CHANNELS,
        OGG_OPUS_SPS]
      omega

theorem frameSizes_pos {s_ps channels : ℕ} (hS : s_ps ∈ supportedRates)
    (hch : 1 ≤ channels) : ∀ x ∈ frameSizes s_ps channels, 0 < x := by
  intro x hx
  fin_cases hS <;>
    · simp only [frameSizes, calc_fr_size, MIN_FRAME_MICROS, List.mem_cons,
        List.not_mem_nil, or_false] at hx
      rcases hx with h | h | h | h <;> (subst h; omega)

theorem frameSizes_le {s_ps channels : ℕ} (hS : s_ps ∈ supportedRates) :
    ∀ x ∈ frameSizes s_ps channels, x ≤ 960 * channels := by
  intro x hx
  fin_cases hS <;>
    · simp only [frameSizes, calc_fr_size, MIN_FRAME_MICROS, List.mem_cons,
        List.not_mem_nil, or_false] at hx
      rcases hx with h | h | h | h <;> (subst h; omega)

theorem to_samples_frame_pos {s_ps : ℕ} (hS : s_ps ∈ supportedRates) :
    0 < to_samples s_ps FRAME_TIME_MS := by
  fin_cases hS <;> norm_num [to_samples, FRAME_TIME_MS]

theorem to_samples_frame_le {s_ps : ℕ} (hS : s_ps ∈ supportedRates) :
    to_samples s_ps FRAME_TIME_MS ≤ 960 := by
  fin_cases hS <;> norm_num [to_samples, FRAME_TIME_MS]

theorem cbs_le {v x : ℕ} {l : List ℕ} (h : calc_biggest_spills v l = some x) :
    x ≤ v := by
  unfold calc_biggest_spills at h
  have h2 := List.find?_some h
  simpa using h2

theorem cbs_mem {v x : ℕ} {l : List ℕ} (h : calc_biggest_spills v l = some x) :
    x ∈ l := by
  unfold calc_biggest_spills at h
  exact List.mem_reverse.mp (List.mem_of_find?_eq_some h)

theorem cbs_none {v : ℕ} {l : List ℕ} (h : calc_biggest_spills v l = none) :
    ∀ x ∈ l, v < x := by
  intro x hx
  unfold calc_biggest_spills at h
  have := List.find?_eq_none.mp h x (List.mem_reverse.mpr hx)
  simpa using this

/-! ## Exact conversion round trips for encoder-produced values -/

theorem granule_rt (s_ps v : ℕ) (hS : s_ps ∈ supportedRates)
    (hv : v * OGG_OPUS_SPS < 2 ^ 64) :
    calc_sr_u64 (granule s_ps v) OGG_OPUS_SPS s_ps = v := by
  unfold granule
  rw [calc_sr_u64_no_wrap v s_ps OGG_OPUS_SPS hv,
    calc_sr_u64_no_wrap _ OGG_OPUS_SPS s_ps
      (lt_of_le_of_lt (Nat.div_mul_le_self _ _) hv)]
  fin_cases hS <;>
    · simp only [OGG_OPUS_SPS]
      omega

theorem preskip_rt (s_ps skip : ℕ) (hS : s_ps ∈ supportedRates)
    (hw : skip * OGG_OPUS_SPS / s_ps < 2 ^ 16) :
    calc_sr (calc_sr skip s_ps OGG_OPUS_SPS) OGG_OPUS_SPS s_ps = skip := by
  have hpos := supported_pos hS
  have hle := supported_le hS
  have h32 : skip * OGG_OPUS_SPS < 2 ^ 32 := by
    have h1 : skip * OGG_OPUS_SPS < 2 ^ 16 * s_ps := (Nat.div_lt_iff_lt_mul hpos).mp hw
    calc skip * OGG_OPUS_SPS < 2 ^ 16 * s_ps := h1
      _ ≤ 2 ^ 16 * 48000 := Nat.mul_le_mul_left _ hle
      _ < 2 ^ 32 := by norm_num
  have h32b : skip * OGG_OPUS_SPS / s_ps * s_ps < 2 ^ 32 :=
    lt_of_le_of_lt (Nat.div_mul_le_self _ _) h32
  have h16b : skip * OGG_OPUS_SPS / s_ps * s_ps / OGG_OPUS_SPS < 2 ^ 16 := by
    fin_cases hS <;>
      · simp only [OGG_OPUS_SPS] at hw ⊢
        omega
  rw [calc_sr_no_wrap _ _ _ h32 hw, calc_sr_no_wrap _ _ _ h32b h16b]
  fin_cases hS <;>
    · simp only [OGG_OPUS_SPS] at hw ⊢
      omega

end OggOpus

namespace OggOpus

/-! ## The terminal packet written by encode (C2) -/

theorem encTail_last (s_ps channels skip L : ℕ)
    (hS : s_ps ∈ supportedRates) (hch1 : 1 ≤ channels) (hch2 : channels ≤ 2) :
    ∀ fuel last_sample, last_sample < L + skip → L + skip - last_sample < fuel →
      ∃ pkts p, encTail s_ps channels skip L (L + skip) fuel last_sample = some pkts ∧
        pkts.getLast? = some p ∧ p.eos = true ∧
        p.gran = granule s_ps ((L + skip) / channels) := by
  intro fuel
  induction fuel with
  | zero =>
    intro lsb h1 h2
    omega
  | succ fuel ih =>
    intro lsb h1 h2
    simp only [encTail]
    rw [if_pos h1]
    cases hcbs : calc_biggest_spills (L + skip - lsb) (frameSizes s_ps channels) with
    | some sz =>
      have hszle : sz ≤ L + skip - lsb := cbs_le hcbs
      have hszpos : 0 < sz := frameSizes_pos hS hch1 sz (cbs_mem hcbs)
      rcases eq_or_lt_of_le (show lsb + sz ≤ L + skip by omega) with heq | hlt
      · obtain ⟨f2, rfl⟩ : ∃ f2, fuel = f2 + 1 := ⟨fuel - 1, by omega⟩
        have hstop : encTail s_ps channels skip L (L + skip) (f2 + 1) (lsb + sz) =
            some [] := by
          simp only [encTail]
          rw [if_neg (by omega)]
        simp only [hstop]
        refine ⟨_, _, rfl, rfl, ?_, ?_⟩
        · simp [is_end_of_stream, heq]
        · simp only [heq]
          rfl
      · have hfu : L + skip - (lsb + sz) < fuel := by omega
        obtain ⟨pkts2, p, hp1, hp2, hp3, hp4⟩ := ih (lsb + sz) hlt hfu
        simp only [hp1]
        have hne : pkts2 ≠ [] := by
          intro hcon
          rw [hcon] at hp2
          simp at hp2
        refine ⟨_, p, rfl, ?_, hp3, hp4⟩
        cases pkts2 with
        | nil => exact absurd rfl hne
        | cons a as =>
          rw [List.getLast?_cons_cons]
          exact hp2
    | none =>
      have hs0 : L + skip - lsb < calc_fr_size MIN_FRAME_MICROS channels s_ps :=
        cbs_none hcbs _ (by simp [frameSizes])
      have hs0max := calc_fr_size_s0_le hS hch2
      rw [if_pos (by constructor <;> omega)]
      refine ⟨_, _, rfl, rfl, rfl, ?_⟩
      rw [Nat.add_comm skip L]
      rfl

end OggOpus

namespace OggOpus

/-- C2 (amended): for every supported configuration the last audio packet
written by `encode` is flagged end-of-stream; its granule position is
`granule((L+skip)/channels)` — the true total converted to 48 kHz, never the
silence-padded length — whenever it is emitted by the tail loop or the
zero-filled fallback, but when the main loop emits the terminal packet
(`max * frame_size = total_samples`) the granule is
`granule((L+skip)/channels + skip)`: it exceeds the true total by the
rescaled lookahead, refuting the claim for that case. -/
theorem c2_terminal_packet (s_ps channels skip L : ℕ)
    (hS : s_ps ∈ supportedRates) (hch : channels = 1 ∨ channels = 2)
    (hL : 0 < L) (hsize : L + skip < 2 ^ 24) :
    ∃ hd pkts p, encodeModel s_ps channels skip L = some (hd, pkts) ∧
      pkts.getLast? = some p ∧ p.eos = true ∧
      p.gran = granule s_ps ((L + skip) / channels +
        (if maxF32 (L + skip) (to_samples s_ps FRAME_TIME_MS * channels) *
            (to_samples s_ps FRAME_TIME_MS * channels) = L + skip
         then skip else 0)) := by
  have hch1 : 1 ≤ channels := by rcases hch with h | h <;> omega
  have hch2 : channels ≤ 2 := by rcases hch with h | h <;> omega
  have hfsam_pos : 0 < to_samples s_ps FRAME_TIME_MS := to_samples_frame_pos hS
  have hfsam_le : to_samples s_ps FRAME_TIME_MS ≤ 960 := to_samples_frame_le hS
  have hfs_pos : 0 < to_samples s_ps FRAME_TIME_MS * channels :=
    Nat.mul_pos hfsam_pos hch1
  have hfs24 : to_samples s_ps FRAME_TIME_MS * channels < 2 ^ 24 := by
    have : to_samples s_ps FRAME_TIME_MS * channels ≤ 960 * 2 :=
      Nat.mul_le_mul hfsam_le hch2
    omega
  have hguard : maxF32 (L + skip) (to_samples s_ps FRAME_TIME_MS * channels) *
      (to_samples s_ps FRAME_TIME_MS * channels) ≤ L + skip :=
    maxF32_mul_le _ _ (by omega) hsize hfs_pos hfs24
  have hnn : ¬ (s_ps_to_audiopus s_ps).isNone = true := by
    simp [Option.isNone_iff_eq_none,
      Option.isSome_iff_ne_none.mp (supported_isSome hS)]
  unfold encodeModel
  rw [if_neg hnn, if_pos hguard]
  set fsam := to_samples s_ps FRAME_TIME_MS with hfsam
  set maxN := maxF32 (L + skip) (fsam * channels) with hmaxN
  by_cases hterm : maxN * (fsam * channels) = L + skip
  · have htail : encTail s_ps channels skip L (L + skip) (L + skip + 1)
        (maxN * (fsam * channels)) = some [] := by
      simp only [encTail]
      rw [if_neg (by omega)]
    simp only [htail, List.append_nil]
    have hm1 : 1 ≤ maxN := by
      rcases Nat.eq_zero_or_pos maxN with h0 | h0
      · rw [h0, Nat.zero_mul] at hterm
        omega
      · exact h0
    obtain ⟨mk, hmk⟩ : ∃ mk, maxN = mk + 1 := ⟨maxN - 1, by omega⟩
    have hlast : (encMain s_ps channels skip (L + skip) maxN).getLast? =
        some ⟨fsam * channels,
          is_end_of_stream ((mk + 1) * (fsam * channels)) (L + skip),
          granule s_ps (skip + (mk + 1) * fsam)⟩ := by
      rw [hmk]
      simp only [encMain, List.range_succ, List.map_append, List.map_cons,
        List.map_nil, List.getLast?_concat, ← hfsam]
    refine ⟨_, _, _, rfl, hlast, ?_, ?_⟩
    · have : (mk + 1) * (fsam * channels) = L + skip := by
        rw [← hmk]
        exact hterm
      simp [is_end_of_stream, this]
    · have hdiv : (mk + 1) * fsam = (L + skip) / channels := by
        have h1 : (mk + 1) * fsam * channels = L + skip := by
          rw [Nat.mul_assoc, ← hmk]
          exact hterm
        rw [← h1, Nat.mul_div_cancel _ hch1]
      rw [if_pos hterm, hdiv, Nat.add_comm skip]
  · have hlt : maxN * (fsam * channels) < L + skip := lt_of_le_of_ne hguard hterm
    obtain ⟨pkts2, p, hp1, hp2, hp3, hp4⟩ :=
      encTail_last s_ps channels skip L hS hch1 hch2 (L + skip + 1)
        (maxN * (fsam * channels)) hlt (by omega)
    simp only [hp1]
    refine ⟨_, _, p, rfl, ?_, hp3, ?_⟩
    · rw [List.getLast?_append, hp2]
      rfl
    · rw [if_neg hterm, Nat.add_zero]
      exact hp4

end OggOpus

namespace OggOpus

theorem maxF32_960_960 : maxF32 960 960 = 1 := by
  have h960 : f32ofNat 960 = ((960 : ℕ) : ℚ) := f32round_natCast (by norm_num)
  unfold maxF32 f32div
  rw [h960, show ((960 : ℕ) : ℚ) / ((960 : ℕ) : ℚ) = ((1 : ℕ) : ℚ) from by norm_num,
    f32round_natCast (by norm_num : (1 : ℕ) < 2 ^ 24)]
  norm_num

theorem c2_terminal_packet_witness :
    48000 ∈ supportedRates ∧ ((1 : ℕ) = 1 ∨ (1 : ℕ) = 2) ∧ (0 : ℕ) < 648 ∧
      648 + 312 < 2 ^ 24 ∧
      (∃ hd pkts p, encodeModel 48000 1 312 648 = some (hd, pkts) ∧
        pkts.getLast? = some p ∧ p.eos = true ∧
        p.gran = granule 48000 ((648 + 312) / 1 +
          (if maxF32 (648 + 312) (to_samples 48000 FRAME_TIME_MS * 1) *
              (to_samples 48000 FRAME_TIME_MS * 1) = 648 + 312
           then 312 else 0))) :=
  ⟨by decide, Or.inl rfl, by norm_num, by norm_num,
    c2_terminal_packet 48000 1 312 648 (by decide) (Or.inl rfl) (by norm_num)
      (by norm_num)⟩

/-- C2 counterexample: 48 kHz mono, lookahead 312, input 648 samples: the
main loop emits the terminal packet (960 = 1 frame) flagged end-of-stream
with granule position 1272 = rescale(312 + 960), while the true total sample
count converted to 48 kHz is 960 — the lookahead is double-counted. -/
theorem c2_counterexample :
    encodeModel 48000 1 312 648 =
        some (opusHead 48000 1 312, [⟨960, true, 1272⟩]) ∧
      granule 48000 (648 + 312) = 960 ∧ (1272 : ℕ) ≠ 960 := by
  refine ⟨?_, by rfl, by decide⟩
  have hm : maxF32 (648 + 312) (to_samples 48000 FRAME_TIME_MS * 1) = 1 := by
    rw [show to_samples 48000 FRAME_TIME_MS * 1 = 960 from rfl,
      show (648 + 312 : ℕ) = 960 from rfl, maxF32_960_960]
  unfold encodeModel
  rw [if_neg (by decide : ¬ (s_ps_to_audiopus 48000).isNone = true)]
  rw [if_pos (show maxF32 (648 + 312) (to_samples 48000 FRAME_TIME_MS * 1) *
      (to_samples 48000 FRAME_TIME_MS * 1) ≤ 648 + 312 from by rw [hm]; decide)]
  simp only [hm]
  rfl

end OggOpus

namespace OggOpus

theorem decStep_skip (target channels : ℕ) (st : DecState) (p : DecPkt)
    (h : ¬ st.remSkip < p.out) :
    decStep target channels st p = some ⟨st.buffer, st.remSkip - p.out,
      st.decAbsgsp + p.out⟩ := by
  simp only [decStep]
  rw [if_neg h]

theorem decStep_noTrim (target channels : ℕ) (st : DecState) (p : DecPkt)
    (hskip : st.remSkip < p.out) (hmax : p.out * channels ≤ MAX_FRAME_SIZE)
    (hch : 1 ≤ channels)
    (hnt : p.last = true →
      st.decAbsgsp + p.out ≤ calc_sr_u64 p.absgp OGG_OPUS_SPS target) :
    decStep target channels st p =
      some ⟨st.buffer ++ (p.data.take (p.out * channels)).drop st.remSkip, 0,
        st.decAbsgsp + p.out⟩ := by
  have hrs : st.remSkip ≤ p.out * channels := by
    have : p.out * 1 ≤ p.out * channels := Nat.mul_le_mul_left _ hch
    omega
  cases hpl : p.last with
  | true =>
    have hA := hnt hpl
    simp only [decStep, hpl]
    rw [if_pos hskip]
    simp only [if_true]
    rw [if_neg (show ¬ calc_sr_u64 p.absgp OGG_OPUS_SPS target <
        st.decAbsgsp + p.out from by omega),
      if_pos (Nat.zero_le _), if_pos ⟨by omega, by omega⟩, Nat.sub_zero]
  | false =>
    simp only [decStep, hpl, Bool.false_eq_true, if_false]
    rw [if_pos hskip, if_pos (Nat.zero_le _), if_pos ⟨by omega, by omega⟩,
      Nat.sub_zero]

theorem decStep_trim (target channels : ℕ) (st : DecState) (p : DecPkt)
    (hskip : st.remSkip < p.out) (hmax : p.out * channels ≤ MAX_FRAME_SIZE)
    (hpl : p.last = true)
    (hlt : calc_sr_u64 p.absgp OGG_OPUS_SPS target < st.decAbsgsp + p.out)
    (htr : st.decAbsgsp + p.out - calc_sr_u64 p.absgp OGG_OPUS_SPS target ≤
      p.out * channels)
    (hrs : st.remSkip ≤ p.out * channels -
      (st.decAbsgsp + p.out - calc_sr_u64 p.absgp OGG_OPUS_SPS target)) :
    decStep target channels st p =
      some ⟨st.buffer ++ (p.data.take (p.out * channels -
          (st.decAbsgsp + p.out - calc_sr_u64 p.absgp OGG_OPUS_SPS target))).drop
          st.remSkip, 0, st.decAbsgsp + p.out⟩ := by
  simp only [decStep, hpl]
  rw [if_pos hskip]
  simp only [if_true]
  rw [if_pos hlt, if_pos htr, if_pos ⟨hrs, by omega⟩]

theorem take_drop_length {l : List ℤ} {te rs : ℕ} (h : te ≤ l.length) :
    ((l.take te).drop rs).length = te - rs := by
  rw [List.length_drop, List.length_take]
  omega

theorem decodeLoop_append (target channels : ℕ) (xs ys : List (Except Unit DecPkt)) :
    ∀ st, decodeLoop target channels st (xs ++ ys) =
      match decodeLoop target channels st xs with
      | some (.ok st2) => decodeLoop target channels st2 ys
      | some (.error e) => some (.error e)
      | none => none := by
  induction xs with
  | nil =>
    intro st
    simp [decodeLoop]
  | cons x rest ih =>
    intro st
    cases x with
    | error e => simp [decodeLoop]
    | ok p =>
      simp only [List.cons_append, decodeLoop]
      cases decStep target channels st p with
      | none => rfl
      | some st2 => exact ih st2

theorem matchesDec_append {channels : ℕ} {xs ys : List EncPkt} {dps : List DecPkt}
    (h : MatchesDec channels (xs ++ ys) dps) :
    ∃ d1 d2, dps = d1 ++ d2 ∧ MatchesDec channels xs d1 ∧
      MatchesDec channels ys d2 := by
  induction xs generalizing dps with
  | nil => exact ⟨[], dps, rfl, List.Forall₂.nil, h⟩
  | cons x rest ih =>
    rw [List.cons_append] at h
    obtain ⟨b, u, hr, hrest, rfl⟩ := List.forall₂_cons_left_iff.mp h
    obtain ⟨d1, d2, rfl, h1, h2⟩ := ih hrest
    exact ⟨b :: d1, d2, rfl, List.Forall₂.cons hr h1, h2⟩

end OggOpus

namespace OggOpus

theorem encTail_decode_mono (s_ps skip L : ℕ) (hS : s_ps ∈ supportedRates)
    (hL : 0 < L) (hsize : L + skip < 2 ^ 24) :
    ∀ fuel lsb, lsb < L + skip → L + skip - lsb < fuel →
      ∃ eps, encTail s_ps 1 skip L (L + skip) fuel lsb = some eps ∧
        ∀ dps, MatchesDec 1 eps dps → ∀ B : List ℤ,
          ∃ st, decodeLoop s_ps 1 ⟨B, skip - lsb, lsb⟩ (dps.map Except.ok) =
              some (.ok st) ∧
            st.buffer.length = B.length + (L - (lsb - skip)) := by
  have h11520 : (11520 : ℕ) = MAX_FRAME_SIZE := by
    norm_num [MAX_FRAME_SIZE, MAX_NUM_CHANNELS, MAX_FRAME_SAMPLES]
  intro fuel
  induction fuel with
  | zero =>
    intro lsb h1 h2
    omega
  | succ fuel ih =>
    intro lsb h1 h2
    simp only [encTail]
    rw [if_pos h1]
    cases hcbs : calc_biggest_spills (L + skip - lsb) (frameSizes s_ps 1) with
    | some sz =>
      have hszle : sz ≤ L + skip - lsb := cbs_le hcbs
      have hszpos : 0 < sz := frameSizes_pos hS (le_refl 1) sz (cbs_mem hcbs)
      have hszmax : sz ≤ 960 * 1 := frameSizes_le hS sz (cbs_mem hcbs)
      rcases eq_or_lt_of_le (show lsb + sz ≤ L + skip by omega) with heq | hlt
      · -- this frame ends exactly at tot_samples: terminal packet, no trim
        obtain ⟨f2, rfl⟩ : ∃ f2, fuel = f2 + 1 := ⟨fuel - 1, by omega⟩
        have hstop : encTail s_ps 1 skip L (L + skip) (f2 + 1) (lsb + sz) =
            some [] := by
          simp only [encTail]
          rw [if_neg (by omega)]
        simp only [hstop]
        refine ⟨_, rfl, ?_⟩
        intro dps hm B
        obtain ⟨d, u, hrel, hnil, rfl⟩ := List.forall₂_cons_left_iff.mp hm
        rw [List.forall₂_nil_left_iff] at hnil
        subst hnil
        obtain ⟨hout, hlen, hlast, habs⟩ := hrel
        dsimp only at hout hlen hlast habs
        rw [Nat.div_one] at hout
        have hA : calc_sr_u64 d.absgp OGG_OPUS_SPS s_ps = lsb + sz := by
          rw [habs]
          simp only [Nat.div_one]
          exact granule_rt s_ps (lsb + sz) hS
            (by simp only [OGG_OPUS_SPS]; omega)
        have hstep := decStep_noTrim s_ps 1 ⟨B, skip - lsb, lsb⟩ d
          (by show skip - lsb < d.out
              omega)
          (by show d.out * 1 ≤ MAX_FRAME_SIZE
              omega)
          (le_refl 1)
          (by intro _
              show lsb + d.out ≤ calc_sr_u64 d.absgp OGG_OPUS_SPS s_ps
              rw [hA]
              omega)
        rw [hout] at hstep
        simp only [List.map_cons, List.map_nil, decodeLoop, hstep]
        refine ⟨_, rfl, ?_⟩
        simp only [List.length_append]
        rw [take_drop_length (by omega : sz * 1 ≤ d.data.length)]
        omega
      · -- frame fits strictly inside: non-terminal packet
        have hfu : L + skip - (lsb + sz) < fuel := by omega
        obtain ⟨eps2, hp1, hdec⟩ := ih (lsb + sz) hlt hfu
        simp only [hp1]
        refine ⟨_, rfl, ?_⟩
        intro dps hm B
        obtain ⟨d, u, hrel, hrest, rfl⟩ := List.forall₂_cons_left_iff.mp hm
        obtain ⟨hout, hlen, hlast, habs⟩ := hrel
        dsimp only at hout hlen hlast habs
        rw [Nat.div_one] at hout
        have hlastF : d.last = false := by
          rw [hlast]
          simp only [is_end_of_stream, beq_eq_false_iff_ne, ne_eq]
          omega
        by_cases hskiplt : skip - lsb < d.out
        · have hstep := decStep_noTrim s_ps 1 ⟨B, skip - lsb, lsb⟩ d
            hskiplt
            (by show d.out * 1 ≤ MAX_FRAME_SIZE
                omega)
            (le_refl 1)
            (by intro hc
                rw [hlastF] at hc
                exact absurd hc (by simp))
          rw [hout] at hstep hskiplt
          simp only [List.map_cons, decodeLoop, hstep]
          obtain ⟨st, hst1, hst2⟩ := hdec u hrest
            (B ++ (d.data.take (sz * 1)).drop (skip - lsb))
          rw [show skip - (lsb + sz) = 0 from by omega] at hst1
          refine ⟨st, hst1, ?_⟩
          rw [hst2]
          simp only [List.length_append]
          rw [take_drop_length (by omega : sz * 1 ≤ d.data.length)]
          omega
        · have hstep := decStep_skip s_ps 1 ⟨B, skip - lsb, lsb⟩ d hskiplt
          rw [hout] at hstep hskiplt
          rw [show skip - lsb - sz = skip - (lsb + sz) from by omega] at hstep
          simp only [List.map_cons, decodeLoop, hstep]
          obtain ⟨st, hst1, hst2⟩ := hdec u hrest B
          refine ⟨st, hst1, ?_⟩
          rw [hst2]
          omega
    | none =>
      -- fallback: zero-padded terminal frame, trimmed by the decoder
      have hs0 : L + skip - lsb < calc_fr_size MIN_FRAME_MICROS 1 s_ps :=
        cbs_none hcbs _ (by simp [frameSizes])
      have hs0max := calc_fr_size_s0_le hS (by norm_num : (1 : ℕ) ≤ 2)
      have hs0le : calc_fr_size MIN_FRAME_MICROS 1 s_ps ≤ 960 * 1 :=
        frameSizes_le hS _ (by simp [frameSizes])
      rw [if_pos (by constructor <;> omega)]
      refine ⟨_, rfl, ?_⟩
      intro dps hm B
      obtain ⟨d, u, hrel, hnil, rfl⟩ := List.forall₂_cons_left_iff.mp hm
      rw [List.forall₂_nil_left_iff] at hnil
      subst hnil
      obtain ⟨hout, hlen, hlast, habs⟩ := hrel
      dsimp only at hout hlen hlast habs
      rw [Nat.div_one] at hout
      have hA : calc_sr_u64 d.absgp OGG_OPUS_SPS s_ps = skip + L := by
        rw [habs]
        simp only [Nat.div_one]
        exact granule_rt s_ps (skip + L) hS
          (by simp only [OGG_OPUS_SPS]; omega)
      have hstep := decStep_trim s_ps 1 ⟨B, skip - lsb, lsb⟩ d
        (by show skip - lsb < d.out
            omega)
        (by show d.out * 1 ≤ MAX_FRAME_SIZE
            omega)
        hlast
        (by show calc_sr_u64 d.absgp OGG_OPUS_SPS s_ps < lsb + d.out
            rw [hA]
            omega)
        (by show lsb + d.out - calc_sr_u64 d.absgp OGG_OPUS_SPS s_ps ≤ d.out * 1
            rw [hA]
            omega)
        (by show skip - lsb ≤ d.out * 1 -
              (lsb + d.out - calc_sr_u64 d.absgp OGG_OPUS_SPS s_ps)
            rw [hA]
            omega)
      rw [hout] at hstep
      dsimp only at hstep
      rw [hA] at hstep
      simp only [List.map_cons, List.map_nil, decodeLoop, hstep]
      refine ⟨_, rfl, ?_⟩
      simp only [List.length_append]
      rw [take_drop_length (by omega :
        calc_fr_size MIN_FRAME_MICROS 1 s_ps * 1 - (lsb +
          calc_fr_size MIN_FRAME_MICROS 1 s_ps - (skip + L)) ≤ d.data.length)]
      omega

end OggOpus

namespace OggOpus

theorem encMain_decode_mono (s_ps skip L F : ℕ) (hS : s_ps ∈ supportedRates)
    (hsize : L + skip < 2 ^ 24) (hF : 0 < F) (hFle : F ≤ 960) :
    ∀ n c0, (c0 + n) * F ≤ L + skip →
      ∀ dps, MatchesDec 1 ((List.range' c0 n).map fun counter =>
          (⟨F * 1, is_end_of_stream ((counter + 1) * (F * 1)) (L + skip),
            granule s_ps (skip + (counter + 1) * F)⟩ : EncPkt)) dps →
        ∀ B : List ℤ,
          ∃ st, decodeLoop s_ps 1 ⟨B, skip - c0 * F, c0 * F⟩ (dps.map Except.ok) =
              some (.ok st) ∧
            st.remSkip = skip - (c0 + n) * F ∧
            st.decAbsgsp = (c0 + n) * F ∧
            st.buffer.length = B.length + (((c0 + n) * F - skip) - (c0 * F - skip)) := by
  have h11520 : (11520 : ℕ) = MAX_FRAME_SIZE := by
    norm_num [MAX_FRAME_SIZE, MAX_NUM_CHANNELS, MAX_FRAME_SAMPLES]
  intro n
  induction n with
  | zero =>
    intro c0 h dps hm B
    simp only [List.range', List.map_nil] at hm
    have hm2 : dps = [] := List.forall₂_nil_left_iff.mp hm
    subst hm2
    refine ⟨_, rfl, ?_, ?_, ?_⟩ <;> simp
  | succ n ih =>
    intro c0 h dps hm B
    rw [List.range'_succ, List.map_cons] at hm
    obtain ⟨d, u, hrel, hrest, rfl⟩ := List.forall₂_cons_left_iff.mp hm
    obtain ⟨hout, hlen, hlast, habs⟩ := hrel
    dsimp only at hout hlen hlast habs
    rw [Nat.div_one] at hout
    have hmono : (c0 + 1) * F ≤ (c0 + (n + 1)) * F :=
      Nat.mul_le_mul_right F (by omega)
    have hA : calc_sr_u64 d.absgp OGG_OPUS_SPS s_ps = skip + (c0 + 1) * F := by
      rw [habs]
      exact granule_rt s_ps (skip + (c0 + 1) * F) hS
        (by simp only [OGG_OPUS_SPS]; omega)
    have hnext : (c0 + 1) + n = c0 + (n + 1) := by omega
    by_cases hskiplt : skip - c0 * F < d.out
    · have hstep := decStep_noTrim s_ps 1 ⟨B, skip - c0 * F, c0 * F⟩ d
        hskiplt
        (by show d.out * 1 ≤ MAX_FRAME_SIZE
            omega)
        (le_refl 1)
        (by intro _
            show c0 * F + d.out ≤ calc_sr_u64 d.absgp OGG_OPUS_SPS s_ps
            rw [hA]
            have : c0 * F + F = (c0 + 1) * F := by ring
            omega)
      rw [hout] at hstep hskiplt
      simp only [List.map_cons, decodeLoop, hstep]
      obtain ⟨st, hloop, hrs, hdc, hln⟩ := ih (c0 + 1)
        (by have : (c0 + 1 + n) * F = (c0 + (n + 1)) * F := by ring
            omega) u hrest
        (B ++ (d.data.take (F * 1 * 1)).drop (skip - c0 * F))
      rw [show skip - (c0 + 1) * F = 0 from by
          have : c0 * F + F = (c0 + 1) * F := by ring
          omega] at hloop
      rw [show (c0 + 1) * F = c0 * F + F * 1 from by ring] at hloop
      refine ⟨st, hloop, ?_, ?_, ?_⟩
      · rw [hrs, hnext]
      · rw [hdc, hnext]
      · rw [hln, hnext]
        simp only [List.length_append]
        rw [take_drop_length (by omega : F * 1 * 1 ≤ d.data.length)]
        have h1 : c0 * F + F = (c0 + 1) * F := by ring
        have h2 : (c0 + (n + 1)) * F = c0 * F + (n + 1) * F := by ring
        have h3 : (c0 + 1) * F ≤ (c0 + (n + 1)) * F := hmono
        omega
    · have hstep := decStep_skip s_ps 1 ⟨B, skip - c0 * F, c0 * F⟩ d hskiplt
      rw [hout] at hstep hskiplt
      rw [show skip - c0 * F - F * 1 = skip - (c0 + 1) * F from by
          have : c0 * F + F = (c0 + 1) * F := by ring
          omega] at hstep
      rw [show c0 * F + F * 1 = (c0 + 1) * F from by ring] at hstep
      simp only [List.map_cons, decodeLoop, hstep]
      obtain ⟨st, hloop, hrs, hdc, hln⟩ := ih (c0 + 1)
        (by have : (c0 + 1 + n) * F = (c0 + (n + 1)) * F := by ring
            omega) u hrest B
      refine ⟨st, hloop, ?_, ?_, ?_⟩
      · rw [hrs, hnext]
      · rw [hdc, hnext]
      · rw [hln, hnext]
        have h1 : c0 * F + F = (c0 + 1) * F := by ring
        have h2 : (c0 + (n + 1)) * F = c0 * F + (n + 1) * F := by ring
        have h3 : (c0 + 1) * F ≤ (c0 + (n + 1)) * F := hmono
        omega

end OggOpus

namespace OggOpus

theorem check_fp_opusHead (target s_ps channels skip48 : ℕ)
    (h16 : skip48 < 2 ^ 16) :
    check_fp target (opusHead s_ps channels skip48) =
      .ok (channels, calc_sr skip48 OGG_OPUS_SPS target, 0) := by
  have hle : skip48 % 256 + 256 * (skip48 / 256 % 256) = skip48 := by omega
  simp [check_fp, opusHead, List.getD_cons_succ, List.getD_cons_zero, hle,
    OPUS_MAGIC_HEADER]

theorem check_sp_tags : check_sp opusTagsBytes = .ok () := by rfl

end OggOpus

namespace OggOpus

/-- C1 (amended): round-trip exactness holds for MONO streams: encoding `L`
interleaved samples at a supported rate with primitive lookahead `skip`
(under `L + skip < 2 ^ 24`, within f32-exact range, and with an
untruncated pre-skip rescaling) succeeds, and decoding the resulting
header and any packet sequence the container faithfully returns for those
frames yields exactly `L` samples and channel count 1.  For stereo the
claim fails (`c1_counterexample`): the pre-skip and granule trims are
per-channel counts applied as interleaved indices. -/
theorem c1_roundtrip_mono (s_ps skip L : ℕ) (hS : s_ps ∈ supportedRates)
    (hL : 0 < L) (hsize : L + skip < 2 ^ 24)
    (hwrap : skip * OGG_OPUS_SPS / s_ps < 2 ^ 16) :
    ∃ pkts, encodeModel s_ps 1 skip L =
        some (opusHead s_ps 1 (calc_sr skip s_ps OGG_OPUS_SPS), pkts) ∧
      ∀ dps, MatchesDec 1 pkts dps →
        ∃ out, decodeModel s_ps
            (.ok (opusHead s_ps 1 (calc_sr skip s_ps OGG_OPUS_SPS)))
            (.ok opusTagsBytes) (dps.map Except.ok) =
          some (.ok (out, 1)) ∧ out.length = L := by
  have hFpos : 0 < to_samples s_ps FRAME_TIME_MS := to_samples_frame_pos hS
  have hFle : to_samples s_ps FRAME_TIME_MS ≤ 960 := to_samples_frame_le hS
  have hguard : maxF32 (L + skip) (to_samples s_ps FRAME_TIME_MS * 1) *
      (to_samples s_ps FRAME_TIME_MS * 1) ≤ L + skip :=
    maxF32_mul_le _ _ (by omega) hsize (by omega) (by omega)
  have hnn : ¬ (s_ps_to_audiopus s_ps).isNone = true := by
    simp [Option.isNone_iff_eq_none,
      Option.isSome_iff_ne_none.mp (supported_isSome hS)]
  have h48lt : calc_sr skip s_ps OGG_OPUS_SPS < 2 ^ 16 := by
    unfold calc_sr
    exact Nat.mod_lt _ (by norm_num)
  have hps : calc_sr (calc_sr skip s_ps OGG_OPUS_SPS) OGG_OPUS_SPS s_ps = skip :=
    preskip_rt s_ps skip hS hwrap
  have hfront : ∀ pk : List (Except Unit DecPkt), ∀ st : DecState,
      decodeLoop s_ps 1 ⟨[], skip, 0⟩ pk = some (.ok st) →
      decodeModel s_ps (.ok (opusHead s_ps 1 (calc_sr skip s_ps OGG_OPUS_SPS)))
        (.ok opusTagsBytes) pk = some (.ok (st.buffer, 1)) := by
    intro pk st hloop
    unfold decodeModel
    rw [if_neg hnn]
    simp only [check_fp_opusHead s_ps s_ps 1 _ h48lt, hps]
    rw [if_pos (Or.inl trivial : True ∨ (1 : ℕ) = 2)]
    simp only [check_sp_tags, hloop]
  by_cases hterm : maxF32 (L + skip) (to_samples s_ps FRAME_TIME_MS * 1) *
      (to_samples s_ps FRAME_TIME_MS * 1) = L + skip
  · have htail : encTail s_ps 1 skip L (L + skip) (L + skip + 1)
        (maxF32 (L + skip) (to_samples s_ps FRAME_TIME_MS * 1) *
          (to_samples s_ps FRAME_TIME_MS * 1)) = some [] := by
      simp only [encTail]
      rw [if_neg (by omega)]
    refine ⟨encMain s_ps 1 skip (L + skip)
        (maxF32 (L + skip) (to_samples s_ps FRAME_TIME_MS * 1)) ++ [], ?_, ?_⟩
    · unfold encodeModel
      rw [if_neg hnn, if_pos hguard]
      simp only [htail]
    · intro dps hm
      rw [List.append_nil] at hm
      simp only [encMain, List.range_eq_range'] at hm
      have hle0 : (0 + maxF32 (L + skip) (to_samples s_ps FRAME_TIME_MS * 1)) *
          to_samples s_ps FRAME_TIME_MS ≤ L + skip := by
        have hbr : (0 + maxF32 (L + skip) (to_samples s_ps FRAME_TIME_MS * 1)) *
            to_samples s_ps FRAME_TIME_MS =
            maxF32 (L + skip) (to_samples s_ps FRAME_TIME_MS * 1) *
              (to_samples s_ps FRAME_TIME_MS * 1) := by ring
        omega
      obtain ⟨st, hloop, hrs, hdc, hln⟩ :=
        encMain_decode_mono s_ps skip L (to_samples s_ps FRAME_TIME_MS) hS hsize
          hFpos hFle (maxF32 (L + skip) (to_samples s_ps FRAME_TIME_MS * 1)) 0
          hle0 dps hm []
      rw [Nat.zero_mul, Nat.sub_zero] at hloop
      refine ⟨st.buffer, hfront _ st hloop, ?_⟩
      rw [hln]
      simp only [List.length_nil]
      have hbr : (0 + maxF32 (L + skip) (to_samples s_ps FRAME_TIME_MS * 1)) *
          to_samples s_ps FRAME_TIME_MS =
          maxF32 (L + skip) (to_samples s_ps FRAME_TIME_MS * 1) *
            (to_samples s_ps FRAME_TIME_MS * 1) := by ring
      omega
  · have hlt2 : maxF32 (L + skip) (to_samples s_ps FRAME_TIME_MS * 1) *
        (to_samples s_ps FRAME_TIME_MS * 1) < L + skip :=
      lt_of_le_of_ne hguard hterm
    obtain ⟨eps, htl, hdecode⟩ :=
      encTail_decode_mono s_ps skip L hS hL hsize (L + skip + 1)
        (maxF32 (L + skip) (to_samples s_ps FRAME_TIME_MS * 1) *
          (to_samples s_ps FRAME_TIME_MS * 1)) hlt2 (by omega)
    refine ⟨encMain s_ps 1 skip (L + skip)
        (maxF32 (L + skip) (to_samples s_ps FRAME_TIME_MS * 1)) ++ eps, ?_, ?_⟩
    · unfold encodeModel
      rw [if_neg hnn, if_pos hguard]
      simp only [htl]
    · intro dps hm
      obtain ⟨d1, d2, rfl, hm1, hm2⟩ := matchesDec_append hm
      simp only [encMain, List.range_eq_range'] at hm1
      have hle0 : (0 + maxF32 (L + skip) (to_samples s_ps FRAME_TIME_MS * 1)) *
          to_samples s_ps FRAME_TIME_MS ≤ L + skip := by
        have hbr : (0 + maxF32 (L + skip) (to_samples s_ps FRAME_TIME_MS * 1)) *
            to_samples s_ps FRAME_TIME_MS =
            maxF32 (L + skip) (to_samples s_ps FRAME_TIME_MS * 1) *
              (to_samples s_ps FRAME_TIME_MS * 1) := by ring
        omega
      obtain ⟨st1, hloop1, hrs1, hdc1, hln1⟩ :=
        encMain_decode_mono s_ps skip L (to_samples s_ps FRAME_TIME_MS) hS hsize
          hFpos hFle (maxF32 (L + skip) (to_samples s_ps FRAME_TIME_MS * 1)) 0
          hle0 d1 hm1 []
      rw [Nat.zero_mul, Nat.sub_zero] at hloop1
      have hbr : (0 + maxF32 (L + skip) (to_samples s_ps FRAME_TIME_MS * 1)) *
          to_samples s_ps FRAME_TIME_MS =
          maxF32 (L + skip) (to_samples s_ps FRAME_TIME_MS * 1) *
            (to_samples s_ps FRAME_TIME_MS * 1) := by ring
      rw [hbr] at hrs1 hdc1 hln1
      have hst1 : st1 = ⟨st1.buffer,
          skip - maxF32 (L + skip) (to_samples s_ps FRAME_TIME_MS * 1) *
            (to_samples s_ps FRAME_TIME_MS * 1),
          maxF32 (L + skip) (to_samples s_ps FRAME_TIME_MS * 1) *
            (to_samples s_ps FRAME_TIME_MS * 1)⟩ := by
        rw [← hrs1, ← hdc1]
      obtain ⟨st2, hloop2, hlen2⟩ := hdecode d2 hm2 st1.buffer
      have hfull : decodeLoop s_ps 1 ⟨[], skip, 0⟩ ((d1 ++ d2).map Except.ok) =
          some (.ok st2) := by
        rw [List.map_append, decodeLoop_append]
        simp only [hloop1]
        rw [hst1]
        exact hloop2
      refine ⟨st2.buffer, hfront _ st2 hfull, ?_⟩
      rw [hlen2, hln1]
      simp only [List.length_nil]
      omega

end OggOpus

namespace OggOpus

theorem c1_roundtrip_mono_witness :
    ((48000 ∈ supportedRates) ∧ 0 < 960 ∧ 960 + 312 < 2 ^ 24 ∧
      312 * OGG_OPUS_SPS / 48000 < 2 ^ 16) ∧
    ∃ pkts, encodeModel 48000 1 312 960 =
        some (opusHead 48000 1 (calc_sr 312 48000 OGG_OPUS_SPS), pkts) ∧
      ∀ dps, MatchesDec 1 pkts dps →
        ∃ out, decodeModel 48000
            (.ok (opusHead 48000 1 (calc_sr 312 48000 OGG_OPUS_SPS)))
            (.ok opusTagsBytes) (dps.map Except.ok) =
          some (.ok (out, 1)) ∧ out.length = 960 :=
  ⟨⟨by decide, by decide, by decide, by decide⟩,
   c1_roundtrip_mono 48000 312 960 (by decide) (by decide) (by decide) (by decide)⟩

set_option maxRecDepth 10000 in
theorem c1_counterexample :
    encodeModel 48000 2 312 2 =
      some (opusHead 48000 2 312, [⟨240, false, 120⟩, ⟨240, true, 157⟩]) ∧
    MatchesDec 2 [⟨240, false, 120⟩, ⟨240, true, 157⟩]
      [⟨120, List.replicate 240 0, false, 120⟩,
       ⟨120, List.replicate 240 0, true, 157⟩] ∧
    decodeModel 48000 (.ok (opusHead 48000 2 312)) (.ok opusTagsBytes)
      [.ok ⟨120, List.replicate 240 0, false, 120⟩,
       .ok ⟨120, List.replicate 240 0, true, 157⟩] =
      some (.ok ([], 2)) ∧
    ([] : List ℤ).length ≠ 2 := by
  have hmax : maxF32 (2 + 312) (to_samples 48000 FRAME_TIME_MS * 2) = 0 := by
    have h1 : to_samples 48000 FRAME_TIME_MS * 2 = 1920 := by rfl
    have h2 : (2 + 312 : ℕ) = 314 := by rfl
    rw [h1, h2]
    have := maxF32_le 314 1920 (by norm_num) (by norm_num) (by norm_num)
      (by norm_num)
    omega
  refine ⟨?_, ?_, ?_, by decide⟩
  · unfold encodeModel
    rw [hmax]
    rfl
  · refine List.Forall₂.cons ⟨by decide, by decide, rfl, rfl⟩
      (List.Forall₂.cons ⟨by decide, by decide, rfl, rfl⟩ List.Forall₂.nil)
  · rfl

end OggOpus
